import Mathlib

/-!
Shallow embedding of the variable-order Markov-chain text generator
(`collect_dict`, `get_next_word`, `generate_text` from the notebook source).

Modelling conventions:
* A token is a list of characters (a Python string); a context is a list of
  tokens (a Python tuple of strings).
* A Python dict of contexts is an association list in insertion order;
  `addSucc` mirrors `d[key].append(w)` / `d[key] = [w]`, `lookupT` mirrors
  `key in d` / `d[key]` (a `none` result models a KeyError).
* The outer dict of `collect_dict` (keys 1..N) is modelled as a total
  function from the order to the table for that order; every access the
  claims exercise is at an order between 1 and the initial key length.
* `random.choice` is an injected chooser function applied to the candidate
  list the code passes to it; applying it to an empty list is modelled as an
  explicit error (Python raises IndexError there).
* `get_next_word` additionally records, as ghost data, the list of table
  orders it consults, and returns the candidate list handed to
  `random.choice` (`none` models the KeyError on the final line).
* `generate_text` additionally returns, as ghost data, the emitted token
  sequence; the accumulated string `markov_text` is carried verbatim.
-/

namespace MarkovGen

abbrev Token := List Char

abbrev Context := List Token

abbrev Table := List (Context × List Token)

abbrev Model := Nat → Table

/-- The space character used by `' '.join` and `split(' ')`. -/
def spc : Char := ' '

/-- Python `d[c]` / `c in d` on an insertion-ordered dict of contexts. -/
def lookupT : Table → Context → Option (List Token)
  | [], _ => none
  | (k, v) :: rest, c => if c = k then some v else lookupT rest c

/-- One builder step: `d[key].append(s)` if `key in d` else `d[key] = [s]`. -/
def addSucc : Table → Context → Token → Table
  | [], k, s => [(k, [s])]
  | (k1, v) :: rest, k, s =>
      if k1 = k then (k1, v ++ [s]) :: rest else (k1, v) :: addSucc rest k s

/-- `tuple(words[i:i+j])`. -/
def ctxAt (words : List Token) (i j : Nat) : Context := (words.drop i).take j

/-- `words[i+n]`; in every use `i + n < words.length`, so the default is dead. -/
def succAt (words : List Token) (n i : Nat) : Token := words.getD (i + n) []

/-- `collect_dict(corpus, n_grams)` on a pre-tokenized corpus: for each order
`j` holds a table built by scanning `i in range(len(words) - n_grams)` with
`key = tuple(words[i:i+j])` and successor `words[i + n_grams]`.  Tokenization
itself is an external collaborator, so the embedding starts from the token
list. -/
def collect_dict (words : List Token) (n : Nat) : Model := fun j =>
  (List.range (words.length - n)).foldl
    (fun t i => addSucc t (ctxAt words i j) (succAt words n i)) []

/-- `if len(key_id) > 1: key_id = key_id[1:]`. -/
def truncKey (k : Context) : Context := if 1 < k.length then k.tail else k

/-- The loop of `get_next_word`: the fuel is `len(key_id)` computed at entry
(`for i in range(len(key_id))`); when the fuel is exhausted the final line
`random.choice(word_pairs[len(key_id)][key_id])` runs.  The first component
records the table orders consulted; the second is the candidate list passed
to `random.choice` (`none` models the KeyError of the final line). -/
def gnwAux (wp : Model) (minLen : Nat) : Nat → Context → List Nat × Option (List Token)
  | 0, key => ([key.length], lookupT (wp key.length) key)
  | f + 1, key =>
      match lookupT (wp key.length) key with
      | some l =>
          if minLen ≤ l.length then ([key.length], some l)
          else
            let r := gnwAux wp minLen f (truncKey key)
            (key.length :: r.1, r.2)
      | none =>
          let r := gnwAux wp minLen f (truncKey key)
          (key.length :: r.1, r.2)

/-- `get_next_word(key_id, min_length)`: the candidate list the returned word
is sampled from uniformly at random (`none` models the KeyError). -/
def get_next_word (wp : Model) (key : Context) (minLen : Nat) : Option (List Token) :=
  (gnwAux wp minLen key.length key).2

/-- The table orders `get_next_word` consults, in consultation order. -/
def gnwOrders (wp : Model) (key : Context) (minLen : Nat) : List Nat :=
  (gnwAux wp minLen key.length key).1

/-- `len(i[0]) > 0 and i[0][0].isupper()` for a context key `i`; keys of the
order-N table are nonempty tuples, so the empty-context case is dead code. -/
def capKey : Context → Bool
  | [] => false
  | t :: _ =>
      match t with
      | [] => false
      | c :: _ => c.isUpper

/-- `[i for i in words[max(words.keys())].keys() if len(i[0]) > 0 and
i[0][0].isupper()]`; `max(words.keys())` is the maximum order `n` of the
model built by `collect_dict`. -/
def capitalized_keys (wp : Model) (n : Nat) : List Context :=
  ((wp n).map Prod.fst).filter capKey

inductive GenError
  | noCapitalizedSeed
  | missingKey
  | emptyChoice
deriving DecidableEq, Repr

/-- `' '.join(ts)`. -/
def joinSp : List Token → List Char
  | [] => []
  | [t] => t
  | t :: ts => t ++ spc :: joinSp ts

/-- `s.split(' ')` (keeps empty pieces, like Python `split` with an explicit
separator). -/
def splitSp : List Char → List (List Char)
  | [] => [[]]
  | c :: r =>
      match splitSp r with
      | [] => [[c]]
      | t :: ts => if c = spc then [] :: t :: ts else (c :: t) :: ts

/-- The `while len(markov_text.split(' ')) < limit` loop of `generate_text`.
`out` is the ghost token sequence; `text` is `markov_text`, which by
construction always equals `joinSp out`.  Each iteration grows
`len(text.split(' '))` by at least one, so fuel `limit` (supplied by
`generate_text`) always outlasts the loop and the fuel-exhausted branch is
dead code. -/
def gen_loop (wp : Model) (minLen limit : Nat) (chT : List Token → Token) :
    Nat → Context → List Token → List Char → Except GenError (List Token × List Char)
  | 0, _, out, text => .ok (out, text)
  | f + 1, key, out, text =>
      if (splitSp text).length < limit then
        match get_next_word wp key minLen with
        | none => .error .missingKey
        | some [] => .error .emptyChoice
        | some (w0 :: ws) =>
            let w := chT (w0 :: ws)
            gen_loop wp minLen limit chT f (key.tail ++ [w]) (out ++ [w]) (text ++ spc :: w)
      else .ok (out, text)

/-- One `replace(' ' ++ [p], [p])` (Python `str.replace`: leftmost,
non-overlapping, all occurrences). -/
def attachP (p : Char) : List Char → List Char
  | [] => []
  | [c] => [c]
  | a :: b :: r =>
      if a = spc ∧ b = p then p :: attachP p r else a :: attachP p (b :: r)

/-- One iteration of the rendering loop body:
`.replace(' .', '.').replace(' ,', ',').replace(' !', '!').replace(' ?', '?').replace(' ;', ';')`. -/
def renderIter (s : List Char) : List Char :=
  attachP ';' (attachP '?' (attachP '!' (attachP ',' (attachP '.' s))))

/-- The full rendering pass: the source runs the iteration once per element
of `['.', '?', '!', ',']`, i.e. four times. -/
def render_punct (s : List Char) : List Char :=
  renderIter (renderIter (renderIter (renderIter s)))

/-- `generate_text(words, limit, min_length)` with the model, its maximum
order `n`, and the two `random.choice` call sites injected as choosers.
Returns the ghost emitted-token sequence together with the rendered string. -/
def generate_text (wp : Model) (n : Nat) (limit minLen : Nat)
    (chK : List Context → Context) (chT : List Token → Token) :
    Except GenError (List Token × List Char) :=
  match capitalized_keys wp n with
  | [] => .error .noCapitalizedSeed
  | k0 :: ks =>
      let first := chK (k0 :: ks)
      match gen_loop wp minLen limit chT limit first first (joinSp first) with
      | .error e => .error e
      | .ok (out, text) => .ok (out, render_punct text)

/-! Concrete instances used by the settled claims. -/

/-- Corpus `["A", "b", "c", "d"]` as token lists. -/
def corpus4 : List Token := [['A'], ['b'], ['c'], ['d']]

/-- The model built from `corpus4` with N = 2. -/
def model4 : Model := collect_dict corpus4 2

/-- Corpus `["A", "b", "c", ".", "A", "b", "d", "."]` as token lists. -/
def corpus9 : List Token := [['A'], ['b'], ['c'], ['.'], ['A'], ['b'], ['d'], ['.']]

/-- The model built from `corpus9` with N = 2. -/
def model9 : Model := collect_dict corpus9 2

/-- A fixed random source that always picks the last candidate context. -/
def lastK (l : List Context) : Context := l.getLastD []

/-- A fixed random source that always picks the last candidate token. -/
def lastT (l : List Token) : Token := l.getLastD []

/-- A token sequence with five empty tokens: its join carries a run of six
spaces before the final dot. -/
def toks6 : List Token := [['a'], [], [], [], [], [], ['.']]

/-- The full consultation schedule of the backoff loop with `f` iterations
left and current order `ℓ`: the order drops by one per iteration while above
one, and the final entry is the terminal-line lookup. -/
def descentOrders : Nat → Nat → List Nat
  | ℓ, 0 => [ℓ]
  | ℓ, f + 1 => ℓ :: descentOrders (if 1 < ℓ then ℓ - 1 else ℓ) f

/-- Whether the two-character string `[a, b]` occurs in `s`. -/
def hasPair (a b : Char) : List Char → Bool
  | x :: y :: r => (decide (x = a) && decide (y = b)) || hasPair a b (y :: r)
  | _ => false

/-! ### Builder characterization -/

theorem lookupT_addSucc (t : Table) (k : Context) (s : Token) (c : Context) :
    lookupT (addSucc t k s) c =
      if c = k then some (((lookupT t c).getD []) ++ [s]) else lookupT t c := by
  induction t with
  | nil => by_cases h : c = k <;> simp [addSucc, lookupT, h]
  | cons hd rest ih =>
    obtain ⟨k1, v⟩ := hd
    by_cases hk : k1 = k
    · subst hk
      by_cases hc : c = k1 <;> simp [addSucc, lookupT, hc]
    · by_cases hc : c = k1
      · subst hc
        simp [addSucc, lookupT, hk]
      · simp [addSucc, lookupT, hk, hc, ih]

/-- Effect of a whole pass of builder steps on one lookup: the pre-existing
list is extended by the successors of exactly the matching window starts, in
order. -/
theorem lookupT_foldl (words : List Token) (n j : Nat) (c : Context) :
    ∀ (idxs : List Nat) (t : Table),
      lookupT (idxs.foldl (fun t i => addSucc t (ctxAt words i j) (succAt words n i)) t) c =
        match lookupT t c, (idxs.filter (fun i => ctxAt words i j = c)).map (succAt words n) with
        | some l, extra => some (l ++ extra)
        | none, [] => none
        | none, e0 :: extra => some (e0 :: extra) := by
  intro idxs
  induction idxs with
  | nil =>
    intro t
    cases h : lookupT t c <;> simp [h]
  | cons i idxs ih =>
    intro t
    rw [List.foldl_cons, ih]
    rw [lookupT_addSucc]
    by_cases hc : ctxAt words i j = c
    · cases h : lookupT t c <;> simp [List.filter_cons, hc, h, List.append_assoc]
    · have hc' : ¬ c = ctxAt words i j := fun h => hc h.symm
      simp [List.filter_cons, hc, hc']

/-- Closed-form lookup in the built model: the following-list of `c` in table
`j` is the list of `words[i+n]` over the window starts `i` whose length-`j`
context equals `c`, and the key is present exactly when that list is
nonempty. -/
theorem lookupT_collect (words : List Token) (n j : Nat) (c : Context) :
    lookupT (collect_dict words n j) c =
      match ((List.range (words.length - n)).filter
          (fun i => ctxAt words i j = c)).map (succAt words n) with
      | [] => none
      | e0 :: extra => some (e0 :: extra) := by
  unfold collect_dict
  rw [lookupT_foldl]
  cases h : ((List.range (words.length - n)).filter
      (fun i => ctxAt words i j = c)).map (succAt words n) <;>
    simp [lookupT, h]

theorem lookupT_collect_nonempty {words : List Token} {n j : Nat} {c : Context}
    {l : List Token} (h : lookupT (collect_dict words n j) c = some l) : l ≠ [] := by
  rw [lookupT_collect] at h
  revert h
  cases hm : ((List.range (words.length - n)).filter
      (fun i => ctxAt words i j = c)).map (succAt words n) with
  | nil => simp
  | cons e0 extra =>
    intro h
    have hl : l = e0 :: extra := by simpa using h.symm
    simp [hl]

/-- Every key of table `j` comes from a window start `i` in the builder's
range, with `c = words[i .. i+j)`. -/
theorem lookupT_collect_window {words : List Token} {n j : Nat} {c : Context}
    {l : List Token} (h : lookupT (collect_dict words n j) c = some l) :
    ∃ i, i < words.length - n ∧ c = ctxAt words i j := by
  rw [lookupT_collect] at h
  revert h
  cases hm : ((List.range (words.length - n)).filter
      (fun i => ctxAt words i j = c)).map (succAt words n) with
  | nil => simp
  | cons e0 extra =>
    intro _
    have : ((List.range (words.length - n)).filter
        (fun i => ctxAt words i j = c)) ≠ [] := by
      intro hf
      rw [hf] at hm
      simp at hm
    obtain ⟨i, hi⟩ := List.exists_mem_of_ne_nil _ this
    have hrange := List.of_mem_filter hi
    have hmem := List.mem_of_mem_filter hi
    refine ⟨i, ?_, ?_⟩
    · exact List.mem_range.mp hmem
    · exact (of_decide_eq_true hrange).symm

theorem ctxAt_length {words : List Token} {i j : Nat} (h : i + j ≤ words.length) :
    (ctxAt words i j).length = j := by
  unfold ctxAt
  rw [List.length_take, List.length_drop]
  omega

theorem lookupT_collect_key_length {words : List Token} {n j : Nat} {c : Context}
    {l : List Token} (hj : j ≤ n) (h : lookupT (collect_dict words n j) c = some l) :
    c.length = j := by
  obtain ⟨i, hi, hc⟩ := lookupT_collect_window h
  subst hc
  exact ctxAt_length (by omega)

/-- Every recorded successor is a corpus token. -/
theorem lookupT_collect_mem_words {words : List Token} {n j : Nat} {c : Context}
    {l : List Token} (h : lookupT (collect_dict words n j) c = some l) :
    ∀ w ∈ l, w ∈ words := by
  intro w hw
  rw [lookupT_collect] at h
  revert h
  cases hm : ((List.range (words.length - n)).filter
      (fun i => ctxAt words i j = c)).map (succAt words n) with
  | nil => simp
  | cons e0 extra =>
    intro h
    have hl : l = e0 :: extra := by simpa using h.symm
    subst hl
    rw [← hm] at hw
    obtain ⟨i, hi, hwi⟩ := List.mem_map.mp hw
    have hir : i < words.length - n := List.mem_range.mp (List.mem_of_mem_filter hi)
    have hlt : i + n < words.length := by omega
    rw [← hwi]
    unfold succAt
    rw [List.getD_eq_getElem _ _ hlt]
    exact List.getElem_mem hlt

/-- `addSucc` appends the key when fresh and keeps the key list otherwise. -/
theorem keys_addSucc (t : Table) (k : Context) (s : Token) :
    (addSucc t k s).map Prod.fst =
      if lookupT t k = none then t.map Prod.fst ++ [k] else t.map Prod.fst := by
  induction t with
  | nil => simp [addSucc, lookupT]
  | cons hd rest ih =>
    obtain ⟨k1, v⟩ := hd
    by_cases hk : k1 = k
    · subst hk
      simp [addSucc, lookupT]
    · have hk' : ¬ k = k1 := fun h => hk h.symm
      simp [addSucc, lookupT, hk, hk', ih]
      split <;> simp

theorem lookupT_eq_none_iff (t : Table) (c : Context) :
    lookupT t c = none ↔ c ∉ t.map Prod.fst := by
  induction t with
  | nil => simp [lookupT]
  | cons hd rest ih =>
    obtain ⟨k1, v⟩ := hd
    by_cases hc : c = k1 <;> simp [lookupT, hc, ih]

theorem mem_keys_iff_lookupT (t : Table) (c : Context) :
    c ∈ t.map Prod.fst ↔ ∃ v, lookupT t c = some v := by
  rw [← not_iff_not, ← lookupT_eq_none_iff]
  cases h : lookupT t c <;> simp

theorem keys_nodup_addSucc {t : Table} (k : Context) (s : Token)
    (h : (t.map Prod.fst).Nodup) : ((addSucc t k s).map Prod.fst).Nodup := by
  rw [keys_addSucc]
  split
  · next hnone =>
    rw [List.nodup_append]
    refine ⟨h, List.nodup_singleton k, ?_⟩
    intro a ha hb
    have : a = k := by simpa using hb
    subst this
    exact (lookupT_eq_none_iff t a).mp hnone ha
  · exact h

/-- The built tables have no duplicate keys. -/
theorem collect_keys_nodup (words : List Token) (n j : Nat) :
    ((collect_dict words n j).map Prod.fst).Nodup := by
  unfold collect_dict
  generalize List.range (words.length - n) = idxs
  have : ∀ (t : Table), (t.map Prod.fst).Nodup →
      ((idxs.foldl (fun t i => addSucc t (ctxAt words i j) (succAt words n i)) t).map
        Prod.fst).Nodup := by
    induction idxs with
    | nil => intro t ht; simpa using ht
    | cons i idxs ih =>
      intro t ht
      rw [List.foldl_cons]
      exact ih _ (keys_nodup_addSucc _ _ ht)
  exact this [] (by simp)

/-! ### Backoff search: consultation schedule -/

theorem truncKey_length (k : Context) :
    (truncKey k).length = if 1 < k.length then k.length - 1 else k.length := by
  unfold truncKey
  split <;> simp [List.length_tail]

/-- The consulted orders form a nonempty initial segment of the full
schedule (the search may stop early when the support threshold is met). -/
theorem gnwAux_orders_take (wp : Model) (minLen : Nat) :
    ∀ (f : Nat) (key : Context),
      ∃ m, 1 ≤ m ∧ (gnwAux wp minLen f key).1 = (descentOrders key.length f).take m := by
  intro f
  induction f with
  | zero =>
    intro key
    exact ⟨1, le_refl 1, rfl⟩
  | succ f ih =>
    intro key
    unfold gnwAux
    cases h : lookupT (wp key.length) key with
    | some l =>
      by_cases hs : minLen ≤ l.length
      · refine ⟨1, le_refl 1, ?_⟩
        simp [hs, descentOrders]
      · obtain ⟨m, hm1, hm⟩ := ih (truncKey key)
        refine ⟨m + 1, by omega, ?_⟩
        simp only [hs, if_false]
        show key.length :: (gnwAux wp minLen f (truncKey key)).1 = _
        rw [hm, truncKey_length]
        simp [descentOrders]
    | none =>
      obtain ⟨m, hm1, hm⟩ := ih (truncKey key)
      refine ⟨m + 1, by omega, ?_⟩
      show key.length :: (gnwAux wp minLen f (truncKey key)).1 = _
      rw [hm, truncKey_length]
      simp [descentOrders]

/-- Closed form of the schedule for the actual call (fuel = initial order):
orders `n, n-1, ..., 1`, then the terminal lookup at order 1. -/
theorem descentOrders_closed :
    ∀ n, 1 ≤ n →
      descentOrders n n = ((List.range n).reverse.map (fun x => x + 1)) ++ [1] := by
  intro n
  induction n with
  | zero => intro h; omega
  | succ m ih =>
    intro _
    cases m with
    | zero => rfl
    | succ k =>
      have hstep : descentOrders (k + 2) (k + 2) = (k + 2) :: descentOrders (k + 1) (k + 1) := by
        show (k + 2) :: descentOrders (if 1 < k + 2 then k + 2 - 1 else k + 2) (k + 1) = _
        rw [if_pos (by omega)]
        norm_num
      have hr : List.range (k + 1 + 1) = List.range (k + 1) ++ [k + 1] := List.range_succ _
      rw [hstep, hr, ih (by omega)]
      simp

/-- Any `some` answer of the backoff search is a following-list stored in
one of the model's tables. -/
theorem gnwAux_some_lookup (wp : Model) (minLen : Nat) {l : List Token} :
    ∀ (f : Nat) (key : Context), (gnwAux wp minLen f key).2 = some l →
      ∃ jj cc, lookupT (wp jj) cc = some l := by
  intro f
  induction f with
  | zero =>
    intro key h
    exact ⟨key.length, key, h⟩
  | succ f ih =>
    intro key
    unfold gnwAux
    cases h : lookupT (wp key.length) key with
    | some l0 =>
      by_cases hs : minLen ≤ l0.length
      · intro hl
        simp only [hs, if_true] at hl
        exact ⟨key.length, key, by rw [h]; exact congrArg some (by simpa using hl)⟩
      · intro hl
        simp only [hs, if_false] at hl
        exact ih (truncKey key) hl
    | none =>
      intro hl
      exact ih (truncKey key) hl

theorem get_next_word_some_lookup (wp : Model) (minLen : Nat) (key : Context)
    {l : List Token} (h : get_next_word wp key minLen = some l) :
    ∃ jj cc, lookupT (wp jj) cc = some l :=
  gnwAux_some_lookup wp minLen key.length key h

/-! ### `' '.join` and `split(' ')` -/

theorem splitSp_ne_nil (s : List Char) : splitSp s ≠ [] := by
  cases s with
  | nil => simp [splitSp]
  | cons c r =>
    unfold splitSp
    cases splitSp r <;> simp
    split <;> simp

theorem joinSp_cons_cons (t u : Token) (ts : List Token) :
    joinSp (t :: u :: ts) = t ++ spc :: joinSp (u :: ts) := rfl

theorem splitSp_no_spc {t : List Char} (h : spc ∉ t) : splitSp t = [t] := by
  induction t with
  | nil => rfl
  | cons c r ih =>
    have hc : ¬ c = spc := fun hcc => h (by simp [hcc])
    have hr : spc ∉ r := fun hrr => h (by simp [hrr])
    unfold splitSp
    rw [ih hr]
    simp [hc]

theorem splitSp_cons (c : Char) (r : List Char) :
    splitSp (c :: r) =
      match splitSp r with
      | [] => [[c]]
      | t :: ts => if c = spc then [] :: t :: ts else (c :: t) :: ts := rfl

theorem splitSp_append_spc (t s : List Char) (h : spc ∉ t) :
    splitSp (t ++ spc :: s) = t :: splitSp s := by
  induction t with
  | nil =>
    show splitSp (spc :: s) = [] :: splitSp s
    rw [splitSp_cons]
    cases hs : splitSp s with
    | nil => exact absurd hs (splitSp_ne_nil s)
    | cons a as => simp
  | cons c t ih =>
    have hc : ¬ c = spc := fun hcc => h (by simp [hcc])
    have ht : spc ∉ t := fun htt => h (by simp [htt])
    show splitSp (c :: (t ++ spc :: s)) = (c :: t) :: splitSp s
    rw [splitSp_cons, ih ht]
    simp [hc]

theorem splitSp_joinSp (out : List Token) (h1 : out ≠ []) (h2 : ∀ t ∈ out, spc ∉ t) :
    splitSp (joinSp out) = out := by
  induction out with
  | nil => exact absurd rfl h1
  | cons t ts ih =>
    cases ts with
    | nil => simpa [joinSp] using splitSp_no_spc (h2 t (by simp))
    | cons u us =>
      rw [joinSp_cons_cons, splitSp_append_spc _ _ (h2 t (by simp)),
        ih (by simp) (fun x hx => h2 x (by simp [hx]))]

theorem joinSp_append_singleton (out : List Token) (w : Token) (h : out ≠ []) :
    joinSp (out ++ [w]) = joinSp out ++ spc :: w := by
  induction out with
  | nil => exact absurd rfl h
  | cons t ts ih =>
    cases ts with
    | nil => rfl
    | cons u us =>
      show joinSp (t :: ((u :: us) ++ [w])) = (t ++ spc :: joinSp (u :: us)) ++ spc :: w
      rw [show (u :: us) ++ [w] = u :: (us ++ [w]) from rfl, joinSp_cons_cons,
        show u :: (us ++ [w]) = (u :: us) ++ [w] from rfl, ih (by simp)]
      simp

/-! ### Generation loop -/

/-- The loop of `generate_text` can only fail inside `get_next_word` or in
`random.choice` over an empty candidate list; the seed error never arises
after seeding. -/
theorem gen_loop_no_seed_error (wp : Model) (minLen limit : Nat) (chT : List Token → Token) :
    ∀ (f : Nat) (key : Context) (out : List Token) (text : List Char),
      gen_loop wp minLen limit chT f key out text ≠ .error .noCapitalizedSeed := by
  intro f
  induction f with
  | zero =>
    intro key out text
    simp [gen_loop]
  | succ f ih =>
    intro key out text
    unfold gen_loop
    split
    · cases h : get_next_word wp key minLen with
      | none => simp
      | some l =>
        cases l with
        | nil => simp
        | cons w0 ws => exact ih _ _ _
    · simp

/-- Core length invariant of the generation loop: starting from a nonempty,
space-free emitted sequence whose join is the accumulated string, a
successful run ends with exactly `max out.length limit` tokens, and with the
start sequence unchanged when the target is already met. -/
theorem gen_loop_spec (wp : Model) (minLen limit : Nat) (chT : List Token → Token)
    (hwp : ∀ (k : Context) (m : Nat) (l : List Token),
      get_next_word wp k m = some l → ∀ w ∈ l, spc ∉ w)
    (hchT : ∀ l : List Token, l ≠ [] → chT l ∈ l) :
    ∀ (f : Nat) (key : Context) (out out2 : List Token) (text2 : List Char),
      out ≠ [] → (∀ t ∈ out, spc ∉ t) →
      limit ≤ out.length + f →
      gen_loop wp minLen limit chT f key out (joinSp out) = .ok (out2, text2) →
      out2.length = max out.length limit ∧ (limit ≤ out.length → out2 = out) := by
  intro f
  induction f with
  | zero =>
    intro key out out2 text2 h1 h2 hf hok
    unfold gen_loop at hok
    injection hok with hpair
    injection hpair with hout htext
    subst hout
    constructor
    · omega
    · intro _; rfl
  | succ f ih =>
    intro key out out2 text2 h1 h2 hf hok
    have hcount : (splitSp (joinSp out)).length = out.length := by
      rw [splitSp_joinSp out h1 h2]
    unfold gen_loop at hok
    by_cases hcond : (splitSp (joinSp out)).length < limit
    · rw [if_pos hcond] at hok
      rw [hcount] at hcond
      cases hgnw : get_next_word wp key minLen with
      | none =>
        rw [hgnw] at hok
        cases hok
      | some l =>
        cases l with
        | nil =>
          rw [hgnw] at hok
          cases hok
        | cons w0 ws =>
          rw [hgnw] at hok
          have hw_mem : chT (w0 :: ws) ∈ w0 :: ws := hchT _ (by simp)
          have hw : spc ∉ chT (w0 :: ws) := hwp key minLen _ hgnw _ hw_mem
          have hok2 : gen_loop wp minLen limit chT f (key.tail ++ [chT (w0 :: ws)])
              (out ++ [chT (w0 :: ws)]) (joinSp out ++ spc :: chT (w0 :: ws)) =
                Except.ok (out2, text2) := hok
          rw [← joinSp_append_singleton out (chT (w0 :: ws)) h1] at hok2
          have hres := ih (key.tail ++ [chT (w0 :: ws)]) (out ++ [chT (w0 :: ws)]) out2 text2
            (by simp)
            (by
              intro t ht
              rcases List.mem_append.mp ht with hmem | hmem
              · exact h2 t hmem
              · have : t = chT (w0 :: ws) := by simpa using hmem
                rw [this]; exact hw)
            (by simp; omega)
            hok2
          constructor
          · rw [hres.1]
            simp at hcond ⊢
            omega
          · intro hle
            omega
    · rw [if_neg hcond] at hok
      rw [hcount] at hcond
      injection hok with hpair
      injection hpair with hout htext
      subst hout
      constructor
      · omega
      · intro _; rfl

/-! ### Seed selection and `generate_text` -/

theorem mem_capitalized_keys (wp : Model) (n : Nat) (k : Context) :
    k ∈ capitalized_keys wp n ↔ ((∃ v, lookupT (wp n) k = some v) ∧ capKey k = true) := by
  unfold capitalized_keys
  rw [List.mem_filter, mem_keys_iff_lookupT]

theorem capitalized_keys_nodup (words : List Token) (n : Nat) :
    (capitalized_keys (collect_dict words n) n).Nodup :=
  (collect_keys_nodup words n n).filter _

/-- In a built model, every candidate list handed to `random.choice` by the
backoff search consists of corpus tokens. -/
theorem get_next_word_collect_mem {words : List Token} {n : Nat} {k : Context}
    {m : Nat} {l : List Token} (h : get_next_word (collect_dict words n) k m = some l) :
    ∀ w ∈ l, w ∈ words := by
  obtain ⟨jj, cc, hj⟩ := get_next_word_some_lookup _ _ _ h
  exact lookupT_collect_mem_words hj

/-- C3 (amended): a successful `generate_text` run on a built model over a
space-free corpus, with random sources that pick members of their candidate
lists, emits exactly `max N L` tokens — not exactly `L`; when `L ≤ N` no
sampling occurs and the emitted sequence is the chosen seed context itself,
whole and untruncated. -/
theorem claim_C3_output_length (words : List Token) (n limit minLen : Nat)
    (chK : List Context → Context) (chT : List Token → Token)
    (hwords : ∀ t ∈ words, spc ∉ t)
    (hchK : ∀ l : List Context, l ≠ [] → chK l ∈ l)
    (hchT : ∀ l : List Token, l ≠ [] → chT l ∈ l)
    (out : List Token) (text : List Char)
    (hok : generate_text (collect_dict words n) n limit minLen chK chT =
      .ok (out, text)) :
    out.length = max n limit ∧
      (limit ≤ n → out = chK (capitalized_keys (collect_dict words n) n)) := by
  unfold generate_text at hok
  cases hcaps : capitalized_keys (collect_dict words n) n with
  | nil =>
    rw [hcaps] at hok
    cases hok
  | cons k0 ks =>
    rw [hcaps] at hok
    have hmem : chK (k0 :: ks) ∈ capitalized_keys (collect_dict words n) n := by
      rw [hcaps]
      exact hchK _ (by simp)
    obtain ⟨⟨v, hv⟩, hcapk⟩ := (mem_capitalized_keys _ _ _).mp hmem
    have hlen : (chK (k0 :: ks)).length = n :=
      lookupT_collect_key_length (le_refl n) hv
    have hne : chK (k0 :: ks) ≠ [] := by
      intro hnil
      rw [hnil] at hcapk
      simp [capKey] at hcapk
    have hwf : ∀ t ∈ chK (k0 :: ks), spc ∉ t := by
      obtain ⟨i, hi, hc⟩ := lookupT_collect_window hv
      intro t ht
      rw [hc] at ht
      unfold ctxAt at ht
      exact hwords t (List.drop_subset _ _ (List.take_subset _ _ ht))
    have hok1 : (match gen_loop (collect_dict words n) minLen limit chT limit
        (chK (k0 :: ks)) (chK (k0 :: ks)) (joinSp (chK (k0 :: ks))) with
      | Except.error e => Except.error e
      | Except.ok (o, t) => Except.ok (o, render_punct t)) = Except.ok (out, text) := hok
    cases hloop : gen_loop (collect_dict words n) minLen limit chT limit
        (chK (k0 :: ks)) (chK (k0 :: ks)) (joinSp (chK (k0 :: ks))) with
    | error e =>
      rw [hloop] at hok1
      have hbad : (Except.error e : Except GenError (List Token × List Char)) =
          Except.ok (out, text) := hok1
      cases hbad
    | ok p =>
      obtain ⟨o2, t2⟩ := p
      rw [hloop] at hok1
      have hok2 : (Except.ok (o2, render_punct t2) :
          Except GenError (List Token × List Char)) = Except.ok (out, text) := hok1
      injection hok2 with hpair
      injection hpair with ho ht
      have hres := gen_loop_spec (collect_dict words n) minLen limit chT
        (fun k m l hl w hw => hwords w (get_next_word_collect_mem hl w hw))
        hchT limit (chK (k0 :: ks)) (chK (k0 :: ks)) o2 t2 hne hwf
        (by omega) hloop
      constructor
      · rw [← ho, hres.1, hlen]
      · intro hle
        rw [← ho, hres.2 (by omega)]

/-! ### Rendering pass -/

theorem twoStepInduction {P : List Char → Prop} (h0 : P []) (h1 : ∀ c, P [c])
    (h2 : ∀ a b r, P (b :: r) → P r → P (a :: b :: r)) : ∀ s, P s
  | [] => h0
  | [c] => h1 c
  | a :: b :: r =>
      h2 a b r (twoStepInduction h0 h1 h2 (b :: r)) (twoStepInduction h0 h1 h2 r)

theorem hasPair_cons_false (a b x : Char) (l : List Char) :
    hasPair a b (x :: l) = false ↔
      (¬(x = a ∧ l.head? = some b)) ∧ hasPair a b l = false := by
  cases l with
  | nil => simp [hasPair]
  | cons y r => simp [hasPair, and_assoc]

theorem attachP_cons_head (p b : Char) (r : List Char) :
    (attachP p (b :: r)).head? = some b ∨
      ((attachP p (b :: r)).head? = some p ∧ b = spc) := by
  cases r with
  | nil => left; rfl
  | cons c r2 =>
    by_cases hbc : b = spc ∧ c = p
    · right
      show (if b = spc ∧ c = p then p :: attachP p r2 else b :: attachP p (c :: r2)).head? =
        some p ∧ b = spc
      rw [if_pos hbc]
      exact ⟨rfl, hbc.1⟩
    · left
      show (if b = spc ∧ c = p then p :: attachP p r2 else b :: attachP p (c :: r2)).head? =
        some b
      rw [if_neg hbc]
      rfl

/-- `replace(' p', 'p')` is the identity on strings without an occurrence. -/
theorem attachP_id (p : Char) :
    ∀ s, hasPair spc p s = false → attachP p s = s := by
  refine twoStepInduction (fun _ => rfl) (fun c _ => rfl) ?_
  intro a b r ih1 _ h
  obtain ⟨hno, htl⟩ := (hasPair_cons_false _ _ _ _).mp h
  have hab : ¬(a = spc ∧ b = p) := by
    intro hx
    exact hno ⟨hx.1, by simp [hx.2]⟩
  show (if a = spc ∧ b = p then p :: attachP p r else a :: attachP p (b :: r)) = a :: b :: r
  rw [if_neg hab, ih1 htl]

/-- After `replace(' p', 'p')` no occurrence of `' p'` remains, provided the
input has no double space. -/
theorem attachP_removes (p : Char) (hp : p ≠ spc) :
    ∀ s, hasPair spc spc s = false → hasPair spc p (attachP p s) = false := by
  refine twoStepInduction (fun _ => rfl) (fun c _ => by simp [attachP, hasPair]) ?_
  intro a b r ih1 ih2 h
  obtain ⟨hnd1, hnd2⟩ := (hasPair_cons_false _ _ _ _).mp h
  have hnd3 : hasPair spc spc r = false := ((hasPair_cons_false _ _ _ _).mp hnd2).2
  by_cases hab : a = spc ∧ b = p
  · show hasPair spc p (if a = spc ∧ b = p then p :: attachP p r else
      a :: attachP p (b :: r)) = false
    rw [if_pos hab, hasPair_cons_false]
    exact ⟨fun hx => hp hx.1, ih2 hnd3⟩
  · show hasPair spc p (if a = spc ∧ b = p then p :: attachP p r else
      a :: attachP p (b :: r)) = false
    rw [if_neg hab, hasPair_cons_false]
    refine ⟨?_, ih1 hnd2⟩
    intro ⟨ha, hhd⟩
    rcases attachP_cons_head p b r with hh | ⟨hh, hbs⟩
    · rw [hh] at hhd
      exact hab ⟨ha, by injection hhd⟩
    · exact hnd1 ⟨ha, by simp [hbs]⟩

/-- `replace(' p', 'p')` preserves the absence of double spaces. -/
theorem attachP_ndsp (p : Char) (hp : p ≠ spc) :
    ∀ s, hasPair spc spc s = false → hasPair spc spc (attachP p s) = false := by
  refine twoStepInduction (fun _ => rfl) (fun c h => by simpa [attachP] using h) ?_
  intro a b r ih1 ih2 h
  obtain ⟨hnd1, hnd2⟩ := (hasPair_cons_false _ _ _ _).mp h
  have hnd3 : hasPair spc spc r = false := ((hasPair_cons_false _ _ _ _).mp hnd2).2
  by_cases hab : a = spc ∧ b = p
  · show hasPair spc spc (if a = spc ∧ b = p then p :: attachP p r else
      a :: attachP p (b :: r)) = false
    rw [if_pos hab, hasPair_cons_false]
    exact ⟨fun hx => hp hx.1, ih2 hnd3⟩
  · show hasPair spc spc (if a = spc ∧ b = p then p :: attachP p r else
      a :: attachP p (b :: r)) = false
    rw [if_neg hab, hasPair_cons_false]
    refine ⟨?_, ih1 hnd2⟩
    intro ⟨ha, hhd⟩
    rcases attachP_cons_head p b r with hh | ⟨hh, hbs⟩
    · rw [hh] at hhd
      injection hhd with hb
      exact hnd1 ⟨ha, by simp [hb]⟩
    · rw [hh] at hhd
      injection hhd with hb
      exact hp hb

/-- `replace(' p', 'p')` preserves the absence of `' q'` for `q ≠ p`,
provided the input has no double space. -/
theorem attachP_pres (p q : Char) (hp : p ≠ spc) (hq : q ≠ p) :
    ∀ s, hasPair spc spc s = false → hasPair spc q s = false →
      hasPair spc q (attachP p s) = false := by
  refine twoStepInduction (fun _ _ => rfl) (fun c _ h => by simpa [attachP] using h) ?_
  intro a b r ih1 ih2 h hqs
  obtain ⟨hnd1, hnd2⟩ := (hasPair_cons_false _ _ _ _).mp h
  have hnd3 : hasPair spc spc r = false := ((hasPair_cons_false _ _ _ _).mp hnd2).2
  obtain ⟨hq1, hq2⟩ := (hasPair_cons_false _ _ _ _).mp hqs
  have hq3 : hasPair spc q r = false := ((hasPair_cons_false _ _ _ _).mp hq2).2
  by_cases hab : a = spc ∧ b = p
  · show hasPair spc q (if a = spc ∧ b = p then p :: attachP p r else
      a :: attachP p (b :: r)) = false
    rw [if_pos hab, hasPair_cons_false]
    exact ⟨fun hx => hp hx.1, ih2 hnd3 hq3⟩
  · show hasPair spc q (if a = spc ∧ b = p then p :: attachP p r else
      a :: attachP p (b :: r)) = false
    rw [if_neg hab, hasPair_cons_false]
    refine ⟨?_, ih1 hnd2 hq2⟩
    intro ⟨ha, hhd⟩
    rcases attachP_cons_head p b r with hh | ⟨hh, hbs⟩
    · rw [hh] at hhd
      exact hq1 ⟨ha, hhd⟩
    · rw [hh] at hhd
      injection hhd with hb
      exact hq hb.symm

/-- After one rendering iteration on a string without double spaces, none of
the five punctuation marks is preceded by a space any more, and double spaces
are still absent. -/
theorem renderIter_clean (s : List Char) (h : hasPair spc spc s = false) :
    hasPair spc '.' (renderIter s) = false ∧ hasPair spc ',' (renderIter s) = false ∧
      hasPair spc '!' (renderIter s) = false ∧ hasPair spc '?' (renderIter s) = false ∧
      hasPair spc ';' (renderIter s) = false ∧ hasPair spc spc (renderIter s) = false := by
  have nd1 : hasPair spc spc (attachP '.' s) = false := attachP_ndsp '.' (by decide) s h
  have r1 : hasPair spc '.' (attachP '.' s) = false := attachP_removes '.' (by decide) s h
  have nd2 : hasPair spc spc (attachP ',' (attachP '.' s)) = false :=
    attachP_ndsp ',' (by decide) _ nd1
  have r2 : hasPair spc ',' (attachP ',' (attachP '.' s)) = false :=
    attachP_removes ',' (by decide) _ nd1
  have p2d : hasPair spc '.' (attachP ',' (attachP '.' s)) = false :=
    attachP_pres ',' '.' (by decide) (by decide) _ nd1 r1
  have nd3 : hasPair spc spc (attachP '!' (attachP ',' (attachP '.' s))) = false :=
    attachP_ndsp '!' (by decide) _ nd2
  have r3 : hasPair spc '!' (attachP '!' (attachP ',' (attachP '.' s))) = false :=
    attachP_removes '!' (by decide) _ nd2
  have p3d : hasPair spc '.' (attachP '!' (attachP ',' (attachP '.' s))) = false :=
    attachP_pres '!' '.' (by decide) (by decide) _ nd2 p2d
  have p3c : hasPair spc ',' (attachP '!' (attachP ',' (attachP '.' s))) = false :=
    attachP_pres '!' ',' (by decide) (by decide) _ nd2 r2
  have nd4 : hasPair spc spc
      (attachP '?' (attachP '!' (attachP ',' (attachP '.' s)))) = false :=
    attachP_ndsp '?' (by decide) _ nd3
  have r4 : hasPair spc '?'
      (attachP '?' (attachP '!' (attachP ',' (attachP '.' s)))) = false :=
    attachP_removes '?' (by decide) _ nd3
  have p4d : hasPair spc '.'
      (attachP '?' (attachP '!' (attachP ',' (attachP '.' s)))) = false :=
    attachP_pres '?' '.' (by decide) (by decide) _ nd3 p3d
  have p4c : hasPair spc ','
      (attachP '?' (attachP '!' (attachP ',' (attachP '.' s)))) = false :=
    attachP_pres '?' ',' (by decide) (by decide) _ nd3 p3c
  have p4e : hasPair spc '!'
      (attachP '?' (attachP '!' (attachP ',' (attachP '.' s)))) = false :=
    attachP_pres '?' '!' (by decide) (by decide) _ nd3 r3
  refine ⟨?_, ?_, ?_, ?_, ?_, ?_⟩
  · exact attachP_pres ';' '.' (by decide) (by decide) _ nd4 p4d
  · exact attachP_pres ';' ',' (by decide) (by decide) _ nd4 p4c
  · exact attachP_pres ';' '!' (by decide) (by decide) _ nd4 p4e
  · exact attachP_pres ';' '?' (by decide) (by decide) _ nd4 r4
  · exact attachP_removes ';' (by decide) _ nd4
  · exact attachP_ndsp ';' (by decide) _ nd4

/-- One rendering iteration is the identity on strings where no pass
punctuation mark is preceded by a space. -/
theorem renderIter_id (s : List Char)
    (hd : hasPair spc '.' s = false) (hc : hasPair spc ',' s = false)
    (he : hasPair spc '!' s = false) (hq : hasPair spc '?' s = false)
    (hs : hasPair spc ';' s = false) : renderIter s = s := by
  unfold renderIter
  rw [attachP_id '.' s hd, attachP_id ',' s hc, attachP_id '!' s he,
    attachP_id '?' s hq, attachP_id ';' s hs]

theorem render_punct_eq_renderIter (s : List Char) (h : hasPair spc spc s = false) :
    render_punct s = renderIter s := by
  obtain ⟨c1, c2, c3, c4, c5, _⟩ := renderIter_clean s h
  have hid : renderIter (renderIter s) = renderIter s := renderIter_id _ c1 c2 c3 c4 c5
  unfold render_punct
  rw [hid, hid, hid]

/-- On strings without double spaces the full rendering pass is idempotent. -/
theorem render_punct_idem (s : List Char) (h : hasPair spc spc s = false) :
    render_punct (render_punct s) = render_punct s := by
  obtain ⟨c1, c2, c3, c4, c5, c6⟩ := renderIter_clean s h
  rw [render_punct_eq_renderIter s h, render_punct_eq_renderIter _ c6,
    renderIter_id _ c1 c2 c3 c4 c5]

theorem ndsp_append (t s : List Char) (h1 : spc ∉ t)
    (h2 : hasPair spc spc s = false) : hasPair spc spc (t ++ s) = false := by
  induction t with
  | nil => simpa using h2
  | cons c t ih =>
    have hc : ¬ c = spc := fun hcc => h1 (by simp [hcc])
    have ht : spc ∉ t := fun htt => h1 (by simp [htt])
    show hasPair spc spc (c :: (t ++ s)) = false
    rw [hasPair_cons_false]
    exact ⟨fun hx => hc hx.1, ih ht⟩

/-- The head of a join starting with a nonempty token is that token's head. -/
theorem joinSp_head_eq (u : Token) (ts : List Token) (hu : u ≠ []) :
    (joinSp (u :: ts)).head? = u.head? := by
  cases ts with
  | nil => rfl
  | cons v vs =>
    rw [joinSp_cons_cons]
    cases u with
    | nil => exact absurd rfl hu
    | cons c u2 => rfl

/-- Joining nonempty space-free tokens with single spaces never produces two
adjacent spaces. -/
theorem ndsp_joinSp (ts : List Token) (h : ∀ t ∈ ts, t ≠ [] ∧ spc ∉ t) :
    hasPair spc spc (joinSp ts) = false := by
  induction ts with
  | nil => rfl
  | cons t ts ih =>
    cases ts with
    | nil =>
      show hasPair spc spc (joinSp [t]) = false
      have : joinSp [t] = t ++ [] := by simp [joinSp]
      rw [this]
      exact ndsp_append t [] (h t (by simp)).2 rfl
    | cons u us =>
      rw [joinSp_cons_cons]
      apply ndsp_append t _ (h t (by simp)).2
      rw [hasPair_cons_false]
      constructor
      · intro ⟨_, hhd⟩
        rw [joinSp_head_eq u us (h u (by simp)).1] at hhd
        obtain ⟨hu1, hu2⟩ := h u (by simp)
        cases u with
        | nil => exact hu1 rfl
        | cons c u2 =>
          have : c = spc := by injection hhd
          exact hu2 (by simp [this])
      · exact ih (fun x hx => h x (by simp [hx]))

/-- The seed error arises exactly when the capitalized-key list is empty;
the loop afterwards can never produce it. -/
theorem generate_noCapSeed_iff (wp : Model) (n limit minLen : Nat)
    (chK : List Context → Context) (chT : List Token → Token) :
    generate_text wp n limit minLen chK chT = .error .noCapitalizedSeed ↔
      capitalized_keys wp n = [] := by
  unfold generate_text
  cases hcaps : capitalized_keys wp n with
  | nil => simp
  | cons k0 ks =>
    constructor
    · intro h
      have h1 : (match gen_loop wp minLen limit chT limit (chK (k0 :: ks))
          (chK (k0 :: ks)) (joinSp (chK (k0 :: ks))) with
        | Except.error e => Except.error e
        | Except.ok (o, t) => Except.ok (o, render_punct t)) =
          Except.error GenError.noCapitalizedSeed := h
      cases hloop : gen_loop wp minLen limit chT limit (chK (k0 :: ks))
          (chK (k0 :: ks)) (joinSp (chK (k0 :: ks))) with
      | error e =>
        rw [hloop] at h1
        have h2 : (Except.error e : Except GenError (List Token × List Char)) =
            Except.error GenError.noCapitalizedSeed := h1
        injection h2 with he
        rw [he] at hloop
        exact absurd hloop (gen_loop_no_seed_error wp minLen limit chT _ _ _ _)
      | ok p =>
        obtain ⟨o, t⟩ := p
        rw [hloop] at h1
        have h2 : (Except.ok (o, render_punct t) :
            Except GenError (List Token × List Char)) =
            Except.error GenError.noCapitalizedSeed := h1
        cases h2
    · intro h
      exact absurd h (List.cons_ne_nil k0 ks)

theorem getLastD_mem {α : Type} (d : α) : ∀ l : List α, l ≠ [] → l.getLastD d ∈ l := by
  intro l
  induction l with
  | nil => intro h; exact absurd rfl h
  | cons a l ih =>
    intro _
    cases l with
    | nil => simp
    | cons b r =>
      have hmem := ih (by simp)
      have hstep : (a :: b :: r).getLastD d = (b :: r).getLastD d := by
        simp [List.getLastD]
      rw [hstep]
      exact List.mem_cons_of_mem a hmem

theorem lastK_mem : ∀ l : List Context, l ≠ [] → lastK l ∈ l :=
  getLastD_mem []

theorem lastT_mem : ∀ l : List Token, l ≠ [] → lastT l ∈ l :=
  getLastD_mem []

/-! ### Settled claims -/

/-- C1: the claim says that when no truncation level meets the support
threshold, the search samples uniformly from the order-N table's list for
the original full-length context.  On the model built from
`["A","b","c","d"]` with N = 2 and `min_support = 2`, no level meets the
threshold, the order-2 list for `("A","b")` is `["c"]`, but the code samples
from table 1 at the trailing token `("b",)`, whose list is `["d"]`. -/
theorem claim_C1_fallback_divergence :
    get_next_word model4 [['A'], ['b']] 2 = some [['d']] ∧
      lookupT (model4 2) [['A'], ['b']] = some [['c']] ∧
      lookupT (model4 1) [['b']] = some [['d']] ∧
      ([['d']] : List Token) ≠ [['c']] :=
  ⟨by decide, by decide, by decide, by decide⟩

/-- C2: in the built model, the following-list of context `c` in table `j`
is exactly the sequence of `tokens[i+N]` over window starts
`i < len(tokens) - N` with `tokens[i..i+j) = c`, in increasing order of `i`,
and `c` is a key of table `j` iff at least one such `i` exists. -/
theorem claim_C2_table_contents (words : List Token) (n j : Nat) (c : Context)
    (_hn : 1 ≤ n) (_hlen : n < words.length) (_hj1 : 1 ≤ j) (_hjn : j ≤ n) :
    lookupT (collect_dict words n j) c =
      match ((List.range (words.length - n)).filter
          (fun i => ctxAt words i j = c)).map (succAt words n) with
      | [] => none
      | e0 :: extra => some (e0 :: extra) :=
  lookupT_collect words n j c

/-- Witness for C2 at the concrete corpus of the spec's scenario. -/
theorem claim_C2_witness :
    lookupT (collect_dict corpus9 2 2) [['A'], ['b']] =
      match ((List.range (corpus9.length - 2)).filter
          (fun i => ctxAt corpus9 i 2 = [['A'], ['b']])).map (succAt corpus9 2) with
      | [] => none
      | e0 :: extra => some (e0 :: extra) :=
  claim_C2_table_contents corpus9 2 2 [['A'], ['b']]
    (by decide) (by decide) (by decide) (by decide)

/-- C3 counterexample: with N = 2 and `target_length = 1` the code emits the
whole two-token seed, so the output has 2 tokens, not exactly 1, and is not
the seed truncated to its first token. -/
theorem claim_C3_counterexample :
    generate_text model4 2 1 5 lastK lastT = .ok ([['A'], ['b']], "A b".toList) ∧
      ([['A'], ['b']] : List Token).length ≠ 1 :=
  ⟨rfl, by decide⟩

/-- Witness for the amended C3 at the spec's concrete scenario:
4 = max 2 4 tokens are emitted. -/
theorem claim_C3_witness :
    ([['A'], ['b'], ['d'], ['.']] : List Token).length = max 2 4 ∧
      (4 ≤ 2 → ([['A'], ['b'], ['d'], ['.']] : List Token) =
        lastK (capitalized_keys (collect_dict corpus9 2) 2)) :=
  claim_C3_output_length corpus9 2 4 1 lastK lastT
    (by decide) lastK_mem lastT_mem
    [['A'], ['b'], ['d'], ['.']] "A b d.".toList rfl

/-- C4 counterexample: on the one-token corpus `["a"]` with N = 1 the
builder does not fail — it returns a model whose order-1 table is empty. -/
theorem claim_C4_counterexample : collect_dict [['a']] 1 1 = ([] : Table) := by
  decide

/-- C4 (amended): for a corpus of at most N tokens the builder does not
fail; it returns a model in which every table is empty (no training window
exists). -/
theorem claim_C4_short_corpus (words : List Token) (n j : Nat)
    (h : words.length ≤ n) : collect_dict words n j = [] := by
  unfold collect_dict
  have hz : words.length - n = 0 := by omega
  rw [hz]
  rfl

/-- Witness for the amended C4. -/
theorem claim_C4_witness :
    ([['a']] : List Token).length ≤ 2 ∧ collect_dict [['a']] 2 1 = [] :=
  ⟨by decide, claim_C4_short_corpus [['a']] 2 1 (by decide)⟩

/-- C5: generation fails with the seed error exactly when no order-N key has
an uppercase-leading first token; the candidate list the seed is drawn from
contains exactly the order-N keys whose first token starts with an uppercase
letter, without duplicates (so a uniform draw from the list is a uniform
draw from that set of keys). -/
theorem claim_C5_seed (words : List Token) (n limit minLen : Nat)
    (chK : List Context → Context) (chT : List Token → Token) :
    (generate_text (collect_dict words n) n limit minLen chK chT =
        .error .noCapitalizedSeed ↔
      capitalized_keys (collect_dict words n) n = []) ∧
      (∀ k : Context, k ∈ capitalized_keys (collect_dict words n) n ↔
        ((∃ v, lookupT (collect_dict words n n) k = some v) ∧ capKey k = true)) ∧
      (capitalized_keys (collect_dict words n) n).Nodup :=
  ⟨generate_noCapSeed_iff _ n limit minLen chK chT,
    fun k => mem_capitalized_keys _ n k,
    capitalized_keys_nodup words n⟩

/-- Witness for C5 at the spec's concrete scenario. -/
theorem claim_C5_witness :
    (generate_text (collect_dict corpus9 2) 2 4 1 lastK lastT =
        .error .noCapitalizedSeed ↔
      capitalized_keys (collect_dict corpus9 2) 2 = []) ∧
      (∀ k : Context, k ∈ capitalized_keys (collect_dict corpus9 2) 2 ↔
        ((∃ v, lookupT (collect_dict corpus9 2 2) k = some v) ∧ capKey k = true)) ∧
      (capitalized_keys (collect_dict corpus9 2) 2).Nodup :=
  claim_C5_seed corpus9 2 4 1 lastK lastT

/-- C6: in the built model, every context key of every table `j` in `1..N`
maps to a non-empty following-list. -/
theorem claim_C6_nonempty_lists (words : List Token) (n j : Nat) (c : Context)
    (l : List Token) (_hj1 : 1 ≤ j) (_hjn : j ≤ n)
    (h : lookupT (collect_dict words n j) c = some l) : l ≠ [] :=
  lookupT_collect_nonempty h

/-- Witness for C6. -/
theorem claim_C6_witness :
    (1 : Nat) ≤ 2 ∧ (2 : Nat) ≤ 2 ∧ ([['c'], ['d']] : List Token) ≠ [] :=
  ⟨by decide, by decide,
    claim_C6_nonempty_lists corpus9 2 2 [['A'], ['b']] [['c'], ['d']]
      (by decide) (by decide) (by decide)⟩

/-- C7 counterexample: on the token sequence `["a", "", "", "", "", "", "."]`
(whose join carries a six-space run) one rendering pass leaves two spaces
before the dot and a second pass removes them, so the pass is not idempotent
on every token sequence. -/
theorem claim_C7_counterexample :
    render_punct (render_punct (joinSp toks6)) ≠ render_punct (joinSp toks6) := by
  decide

/-- C7 (amended): for token sequences of nonempty tokens containing no space
character — so that the join has single spaces only — the rendering pass is
idempotent. -/
theorem claim_C7_render_idem (ts : List Token)
    (h : ∀ t ∈ ts, t ≠ [] ∧ spc ∉ t) :
    render_punct (render_punct (joinSp ts)) = render_punct (joinSp ts) :=
  render_punct_idem _ (ndsp_joinSp ts h)

/-- Witness for the amended C7. -/
theorem claim_C7_witness :
    render_punct (render_punct (joinSp [['a'], ['.']])) =
      render_punct (joinSp [['a'], ['.']]) :=
  claim_C7_render_idem [['a'], ['.']] (by decide)

/-- C8 counterexample: the context `("b","c")` is present in the order-2
table of the model built from `["A","b","c","d"]`, yet with
`min_support = 2` the search does not terminate with a returned token — its
terminal line looks up table 1 at the trailing token `("c",)`, which is
absent, and raises a KeyError (modelled as `none`). -/
theorem claim_C8_counterexample :
    lookupT (model4 2) [['b'], ['c']] = some [['d']] ∧
      get_next_word model4 [['b'], ['c']] 2 = none :=
  ⟨by decide, by decide⟩

/-- C8 (amended): the backoff search consults, in order, a nonempty initial
segment of the schedule `N, N-1, ..., 1` followed by one terminal lookup at
order 1 — so the consulted orders are strictly descending until order 1, it
makes at most `N + 1` lookups, never consults an order above the current
context length, and never loops or retries; but it ends either with a
candidate list to sample from or with a KeyError at the terminal lookup. -/
theorem claim_C8_probe_schedule (wp : Model) (minLen : Nat) (key : Context)
    (hk : 1 ≤ key.length) :
    (∃ m, 1 ≤ m ∧ gnwOrders wp key minLen =
        (((List.range key.length).reverse.map (fun x => x + 1)) ++ [1]).take m) ∧
      (gnwOrders wp key minLen).length ≤ key.length + 1 ∧
      ∀ o ∈ gnwOrders wp key minLen, 1 ≤ o ∧ o ≤ key.length := by
  obtain ⟨m, hm1, hm⟩ := gnwAux_orders_take wp minLen key.length key
  have hd := descentOrders_closed key.length hk
  have horders : gnwOrders wp key minLen =
      (((List.range key.length).reverse.map (fun x => x + 1)) ++ [1]).take m := by
    unfold gnwOrders
    rw [hm, hd]
  refine ⟨⟨m, hm1, horders⟩, ?_, ?_⟩
  · rw [horders]
    have h1 := List.length_take m
      (((List.range key.length).reverse.map (fun x => x + 1)) ++ [1])
    have h2 : ((((List.range key.length).reverse.map (fun x => x + 1)) ++ [1])).length =
        key.length + 1 := by simp
    rw [h1, h2]
    exact Nat.min_le_right m (key.length + 1)
  · intro o ho
    rw [horders] at ho
    have ho2 : o ∈ ((List.range key.length).reverse.map (fun x => x + 1)) ++ [1] :=
      List.mem_of_mem_take ho
    rcases List.mem_append.mp ho2 with h1 | h1
    · obtain ⟨x, hx, hxo⟩ := List.mem_map.mp h1
      have hxr : x < key.length := List.mem_range.mp (List.mem_reverse.mp hx)
      omega
    · have : o = 1 := by simpa using h1
      omega

/-- Witness for the amended C8. -/
theorem claim_C8_witness :
    (∃ m, 1 ≤ m ∧ gnwOrders model4 [['A'], ['b']] 2 =
        (((List.range (([['A'], ['b']] : Context)).length).reverse.map
          (fun x => x + 1)) ++ [1]).take m) ∧
      (gnwOrders model4 [['A'], ['b']] 2).length ≤ ([['A'], ['b']] : Context).length + 1 ∧
      ∀ o ∈ gnwOrders model4 [['A'], ['b']] 2, 1 ≤ o ∧ o ≤ ([['A'], ['b']] : Context).length :=
  claim_C8_probe_schedule model4 2 [['A'], ['b']] (by decide)

/-- C9: the spec's concrete scenario.  The order-2 table of the model built
from `["A","b","c",".","A","b","d","."]` maps `("A","b")` to `["c","d"]`;
with the always-pick-last random source the seed list is exactly
`[("A","b")]`, and generating 4 tokens yields `["A","b","d","."]` rendered
as `"A b d."`. -/
theorem claim_C9_concrete_scenario :
    lookupT (model9 2) [['A'], ['b']] = some [['c'], ['d']] ∧
      capitalized_keys model9 2 = [[['A'], ['b']]] ∧
      generate_text model9 2 4 1 lastK lastT =
        .ok ([['A'], ['b'], ['d'], ['.']], "A b d.".toList) :=
  ⟨by decide, by decide, rfl⟩

/-- C10: every key of table `j` (for `j` in `1..N`) of the built model is a
context of exactly `j` tokens, equal to `tokens[i..i+j)` for some window
start `i` in the builder's range. -/
theorem claim_C10_key_shape (words : List Token) (n j : Nat) (c : Context)
    (l : List Token) (_hj1 : 1 ≤ j) (hjn : j ≤ n)
    (h : lookupT (collect_dict words n j) c = some l) :
    c.length = j ∧ ∃ i, i < words.length - n ∧ c = ctxAt words i j :=
  ⟨lookupT_collect_key_length hjn h, lookupT_collect_window h⟩

/-- Witness for C10. -/
theorem claim_C10_witness :
    ([['b']] : Context).length = 1 ∧
      ∃ i, i < corpus9.length - 2 ∧ ([['b']] : Context) = ctxAt corpus9 i 1 :=
  claim_C10_key_shape corpus9 2 1 [['b']] [['.'], ['.']]
    (by decide) (by decide) (by decide)

end MarkovGen
